import Mathlib

/-!
Verification development for the Vakyasaar repository (pdf-summarizer).

The repository holds two Python scripts:
* `Scrapper/scrape.py` — a browser-automation scraper that downloads
  press-release PDFs into a date-partitioned tree and a flat collective
  folder, skipping files that already exist.
* `Train-set-maker/Train_set.py` — a Tk GUI tool that extracts text from
  PDFs, cleans it with a fixed regex pipeline, calls a remote LLM API and
  writes one JSON record per processed file.

Strings are shallowly embedded as `List Char`.  Python text operations
(`str.strip`, `str.splitlines`, `str.find`, `str.zfill`, the specific
regex substitutions used by the scripts) are modelled as executable Lean
functions.  External effects (the browser, the filesystem, the LLM API,
`json.loads`, `langdetect`) are modelled by explicit state records or by
outcome parameters, so every function here is total and computable.

`splitlines` is modelled over the line terminators actually reachable in
this code base (`\n`, `\r`, `\r\n`); `strip` and the regex classes use the
ASCII whitespace set, matching the ASCII inputs the scripts process.
-/

namespace Vakyasaar

/-- Text is embedded as a list of characters. -/
abbrev Str := List Char

/-- ASCII whitespace, the character class Python's `str.strip` and the
regex class `\s` use on the ASCII texts handled by these scripts:
space, tab, newline, carriage return, vertical tab, form feed. -/
def isPyWs (c : Char) : Bool :=
  c.toNat = 32 || c.toNat = 9 || c.toNat = 10 || c.toNat = 13 ||
  c.toNat = 11 || c.toNat = 12

/-- ASCII decimal digit (regex `\d` / `str.isdigit` on ASCII). -/
def isDigitC (c : Char) : Bool := 48 ≤ c.toNat && c.toNat ≤ 57

/-- ASCII letter (regex `[A-Za-z]`). -/
def isAlphaC (c : Char) : Bool :=
  (65 ≤ c.toNat && c.toNat ≤ 90) || (97 ≤ c.toNat && c.toNat ≤ 122)

/-- ASCII upper-case letter (regex `[A-Z]`). -/
def isUpperC (c : Char) : Bool := 65 ≤ c.toNat && c.toNat ≤ 90

/-- `leadsWith p s` is true when `p` occurs at the very start of `s`
(Python `s.startswith(p)`). -/
def leadsWith : Str → Str → Bool
  | [], _ => true
  | _ :: _, [] => false
  | a :: p, b :: s => a = b && leadsWith p s

/-- Python `str.lstrip()`: drop leading whitespace. -/
def lstrip : Str → Str
  | [] => []
  | c :: cs => if isPyWs c then lstrip cs else c :: cs

/-- Python `str.rstrip()`: drop trailing whitespace. -/
def rstrip (s : Str) : Str := (lstrip s.reverse).reverse

/-- Python `str.strip()`: drop whitespace from both ends. -/
def strip (s : Str) : Str := rstrip (lstrip s)

/-- Python `str.splitlines()` over the terminators reachable here:
`\n`, `\r` and the pair `\r\n`.  A trailing terminator does not produce a
final empty line, and `"".splitlines() = []`. -/
def splitlines : Str → List Str
  | [] => []
  | c :: cs =>
    if c = '\n' then [] :: splitlines cs
    else if c = '\r' then
      match cs with
      | [] => [[]]
      | c2 :: cs2 =>
        if c2 = '\n' then [] :: splitlines cs2 else [] :: splitlines (c2 :: cs2)
    else
      match splitlines cs with
      | [] => [[c]]
      | l :: ls => (c :: l) :: ls

/-- `"\n".join(lines)`. -/
def joinN : List Str → Str
  | [] => []
  | [l] => l
  | l :: ls => l ++ '\n' :: joinN ls

/-- One scan step of a delete-substitution: given a matcher that reports
the length of a regex match at the current position, delete every
non-overlapping leftmost match (Python `pattern.sub('', s)` scanning).
The fuel argument bounds the number of scan steps; each step consumes at
least one character when the matcher only reports positive lengths. -/
def subDel (m : Str → Option Nat) : Nat → Str → Str
  | 0, s => s
  | _ + 1, [] => []
  | fuel + 1, c :: cs =>
    match m (c :: cs) with
    | some n => subDel m fuel (List.drop n (c :: cs))
    | none => c :: subDel m fuel cs

/-- Length of a match of `url_pattern = https?://\S+|www\.\S+` at the
start of `s`, if any.  The first regex alternative tries `https?://`
(which succeeds exactly when the text starts with `https://` or
`http://`) followed by one or more non-whitespace characters; the second
tries `www.` followed by one or more non-whitespace characters. -/
def urlMatchLen (s : Str) : Option Nat :=
  if leadsWith "https://".data s then
    let w := (s.drop 8).takeWhile (fun c => !isPyWs c)
    if w.length = 0 then none else some (8 + w.length)
  else if leadsWith "http://".data s then
    let w := (s.drop 7).takeWhile (fun c => !isPyWs c)
    if w.length = 0 then none else some (7 + w.length)
  else if leadsWith "www.".data s then
    let w := (s.drop 4).takeWhile (fun c => !isPyWs c)
    if w.length = 0 then none else some (4 + w.length)
  else none

/-- Length of a match of `ref_pattern = \[\d+\]` at the start of `s`,
if any: `[`, one or more digits, `]`. -/
def refMatchLen (s : Str) : Option Nat :=
  match s with
  | '[' :: rest =>
    let ds := rest.takeWhile isDigitC
    if ds.length = 0 then none
    else
      match (rest.drop ds.length).head? with
      | some c => if c = ']' then some (ds.length + 2) else none
      | none => none
  | _ => none

/-- `url_pattern.sub('', s)`: delete every URL match. -/
def urlSub (s : Str) : Str := subDel urlMatchLen (s.length + 1) s

/-- `ref_pattern.sub('', s)`: delete every `[n]` reference match. -/
def refSub (s : Str) : Str := subDel refMatchLen (s.length + 1) s

/-- `multi_newline_pattern.sub('\n\n', s)` for `\n{3,}`: every run of
three or more newlines becomes exactly two.  Implemented by dropping a
newline whenever it is followed by at least two more, which leaves the
last two newlines of each long run — the same output string as the
regex replacement. -/
def mnlSub : Str → Str
  | c1 :: c2 :: c3 :: cs =>
    if c1 = '\n' ∧ c2 = '\n' ∧ c3 = '\n' then mnlSub (c2 :: c3 :: cs)
    else c1 :: mnlSub (c2 :: c3 :: cs)
  | s => s

/-- `re.sub(r' +', ' ', s)`: every run of two or more spaces becomes a
single space.  Implemented by dropping a space that is directly followed
by another space, which keeps one space per run — the same output string
as the regex replacement. -/
def collapseSp : Str → Str
  | [] => []
  | [c] => [c]
  | c1 :: c2 :: cs =>
    if c1 = ' ' ∧ c2 = ' ' then collapseSp (c2 :: cs)
    else c1 :: collapseSp (c2 :: cs)

/-- `datetime_pattern.fullmatch`:
`^\d{1,2}-[A-Za-z]+-\d{4}\s+\d{1,2}:\d{1,2}\s+[A-Z]+$`.
Each quantified class is followed by a character outside the class, so
the greedy matcher needs no backtracking and `takeWhile` is exact. -/
def eatClass (p : Char → Bool) (lo : Nat) (hi : Option Nat) (s : Str) : Option Str :=
  let t := s.takeWhile p
  let hiOk : Bool := match hi with | some h => t.length ≤ h | none => true
  if lo ≤ t.length && hiOk then some (s.dropWhile p) else none

/-- Consume one expected character. -/
def eatChar (c : Char) : Str → Option Str
  | x :: r => if x = c then some r else none
  | [] => none

/-- Whether `datetime_pattern` fully matches the line `s`. -/
def datetimeMatch (s : Str) : Bool :=
  (do
    let s1 ← eatClass isDigitC 1 (some 2) s
    let s2 ← eatChar '-' s1
    let s3 ← eatClass isAlphaC 1 none s2
    let s4 ← eatChar '-' s3
    let s5 ← eatClass isDigitC 4 (some 4) s4
    let s6 ← eatClass isPyWs 1 none s5
    let s7 ← eatClass isDigitC 1 (some 2) s6
    let s8 ← eatChar ':' s7
    let s9 ← eatClass isDigitC 1 (some 2) s8
    let s10 ← eatClass isPyWs 1 none s9
    let s11 ← eatClass isUpperC 1 none s10
    if s11 = [] then some () else none).isSome

/-- Decimal digit character for `n < 10`. -/
def digitChar : Nat → Char
  | 0 => '0' | 1 => '1' | 2 => '2' | 3 => '3' | 4 => '4'
  | 5 => '5' | 6 => '6' | 7 => '7' | 8 => '8' | 9 => '9'
  | _ => '?'

/-- `str(n)` for a natural number: its decimal digit string.  Defined
with a fuel argument so that it reduces inside the kernel; `natDigits`
supplies sufficient fuel. -/
def natDigitsAux : Nat → Nat → Str
  | 0, _ => []
  | fuel + 1, n =>
    if n < 10 then [digitChar n] else natDigitsAux fuel (n / 10) ++ [digitChar (n % 10)]

/-- `str(n)`. -/
def natDigits (n : Nat) : Str := natDigitsAux (n + 1) n

/-- `str(n).zfill(2)`: pad the decimal string of `n` on the left with
zeros to width two (a decimal string is never empty, so at most one zero
is added; wider strings are unchanged). -/
def zfill2 (n : Nat) : Str :=
  if (natDigits n).length < 2 then '0' :: natDigits n else natDigits n

/-- Python `text.find(p)`: index of the leftmost occurrence of `p` in
`t`, as an `Option` instead of `-1`. -/
def strFind (p : Str) : Str → Option Nat
  | [] => if leadsWith p [] then some 0 else none
  | c :: t => if leadsWith p (c :: t) then some 0 else (strFind p t).map (· + 1)

/-- Python `text.find(p, k)` for `k ≤ len(text)`: leftmost occurrence of
`p` in `t` at an index `≥ k`.  (The scripts only call this with `k` equal
to the end of an earlier match, which is always within the text.) -/
def strFindFrom (t p : Str) (k : Nat) : Option Nat :=
  (strFind p (t.drop k)).map (· + k)

/-- Declarative occurrence: the pattern `p` occurs in `t` at index `i`. -/
def occursAt (p t : Str) (i : Nat) : Prop :=
  i ≤ t.length ∧ leadsWith p (t.drop i) = true

instance (p t : Str) (i : Nat) : Decidable (occursAt p t i) := by
  unfold occursAt
  infer_instance

/-- Declarative first occurrence of `p` in `t`. -/
def firstOccur (p t : Str) (i : Nat) : Prop :=
  occursAt p t i ∧ ∀ k, k < i → ¬ occursAt p t k

instance (p t : Str) (i : Nat) : Decidable (firstOccur p t i) := by
  unfold firstOccur
  infer_instance

end Vakyasaar

namespace Vakyasaar.TrainSet

open Vakyasaar

/-- `HEADERS_FOOTERS_TO_REMOVE` from `PDFProcessorApp`. -/
def HEADERS_FOOTERS_TO_REMOVE : List Str :=
  ["Press Information Bureau".data, "Government of India".data, "****".data]

/-- The per-line transformation of `extract_and_clean_text` (lines
261–269 of `Train_set.py`): strip the line; drop it when empty, when the
datetime pattern fully matches, or when it is a known header/footer;
otherwise delete URL matches, then `[n]` reference matches, strip again,
and keep the line only if it is still nonempty.  (The
`is_likely_table_line` filter is commented out in the source.) -/
def cleanLine (line : Str) : Option Str :=
  let c := strip line
  if c = [] then none
  else if datetimeMatch c then none
  else if c ∈ HEADERS_FOOTERS_TO_REMOVE then none
  else
    let c2 := strip (refSub (urlSub c))
    if c2 = [] then none else some c2

/-- The text-cleanup pipeline of `extract_and_clean_text` (lines
260–272), acting on the raw text extracted from the PDF: apply
`cleanLine` to every line, join the survivors with newlines, collapse
runs of three or more newlines, strip, and collapse runs of spaces. -/
def cleanText (s : Str) : Str :=
  collapseSp (strip (mnlSub (joinN ((splitlines s).filterMap cleanLine))))

/-- `PDFProcessorApp.extract_between_markers` (lines 331–337): find the
start marker, then the end marker after it, and return the stripped
substring in between; `None` when either find fails. -/
def extract_between_markers (text startM endM : Str) : Option Str :=
  match strFind startM text with
  | none => none
  | some i =>
    let s := i + startM.length
    match strFindFrom text endM s with
    | none => none
    | some j => some (strip ((text.drop s).take (j - s)))

/-- The JSON values `json.loads` can produce. -/
inductive Json where
  | null
  | bool (b : Bool)
  | num (n : Int)
  | str (s : Str)
  | arr (elems : List Json)
  | obj (fields : List (Str × Json))
deriving BEq

/-- `isinstance(v, list)`. -/
def Json.isArr : Json → Bool
  | .arr _ => true
  | _ => false

/-- The comment-filtering step of `generate_summary_and_topics` (line
316): drop every line whose stripped form starts with `//`, and join the
rest with newlines. -/
def stripCommentLines (s : Str) : Str :=
  joinN ((splitlines s).filter (fun l => !leadsWith "//".data (strip l)))

/-- The topics-parsing step of `generate_summary_and_topics` (lines
314–322), given the already-extracted summary and topics block.
`json.loads` is an external library call, modelled by the `parse`
argument (`none` = `JSONDecodeError`).  A parse failure or a non-list
parse result raises inside the `try`, and the handler returns the
summary together with `None`; a list result is returned as is. -/
def topicsParseStep (parse : Str → Option Json) (summary topicsJsonStr : Str) :
    Str × Option Json :=
  let cleaned := stripCommentLines topicsJsonStr
  match parse cleaned with
  | none => (summary, none)
  | some v => if v.isArr then (summary, some v) else (summary, none)

/-- `PDFProcessorApp.add_pdf_files` (lines 212–218): normalise each
incoming path (via the external `os.path.normpath`, modelled by `norm`)
and append it only when not already present. -/
def add_pdf_files (norm : Str → Str) (pdfFiles : List Str) (filesToAdd : List Str) :
    List Str :=
  filesToAdd.foldl (fun acc f =>
    let nf := norm f
    if nf ∈ acc then acc else acc ++ [nf]) pdfFiles

/-- `PDFProcessorApp.clear_files` (line 225): reset the list. -/
def clear_files (_pdfFiles : List Str) : List Str := []

/-- A user action touching `pdf_files`. -/
inductive FileOp where
  | add (files : List Str)
  | clear

/-- Run a sequence of add/clear operations from the initial empty
`pdf_files` list set up in `__init__`. -/
def runFileOps (norm : Str → Str) (ops : List FileOp) : List Str :=
  ops.foldl (fun cur op =>
    match op with
    | .add fs => add_pdf_files norm cur fs
    | .clear => clear_files cur) []

/-- `PDFProcessorApp.configure_gemini` (lines 95–116).  `apiKey` is the
value of `os.getenv("GEMINI_API_KEY")`; `clientOk` models whether the
external `genai.configure` / `GenerativeModel` calls succeed.  Returns
the success flag and the configured model name (`self.model`), which
stays `None` on every failure path. -/
def configure_gemini (apiKey : Option Str) (clientOk : Bool) : Bool × Option Str :=
  match apiKey with
  | none => (false, none)
  | some k =>
    if k = [] then (false, none)
    else if clientOk then (true, some "gemini-1.5-flash-latest".data)
    else (false, none)

/-- The observable outcome of `PDFProcessorApp.__init__` (lines 56–73). -/
structure AppInit where
  model : Option Str
  destroyScheduled : Bool
  widgetsCreated : Bool
  pdfFilesInitialized : Bool
deriving DecidableEq

/-- `__init__`: when `configure_gemini` fails, schedule destruction of
the root window and stop — no widgets are created and `pdf_files` is
never initialised; otherwise build the UI and start with an empty file
list. -/
def appInit (apiKey : Option Str) (clientOk : Bool) : AppInit :=
  let r := configure_gemini apiKey clientOk
  if r.1 = false then
    { model := r.2, destroyScheduled := true, widgetsCreated := false,
      pdfFilesInitialized := false }
  else
    { model := r.2, destroyScheduled := false, widgetsCreated := true,
      pdfFilesInitialized := true }

/-- Outcome of the external `langdetect.detect` call on a sample. -/
inductive LangOutcome where
  | detected (code : Str)
  | failed

/-- One input file together with the outcomes of the external calls made
for it: the text produced by extraction (`none` = extraction raised),
the language-detector outcome, and the pair returned by
`generate_summary_and_topics` (summary and topics, either may be
`none`). -/
structure FileJob where
  filename : Str
  extractResult : Option Str
  lang : LangOutcome
  geminiResult : Option Str × Option Json

/-- One line of the JSONL dataset (the `data_record` of line 433). -/
structure Record where
  pdf_filename : Str
  extracted_text : Str
  gemini_summary : Option Str
  gemini_topics : Option Json

/-- The language decision of `process_files` step 2 (lines 414–426):
`lang` defaults to `'en'`; the first 1500 characters are sampled; a
sample whose stripped form is shorter than 20 characters yields
`'unknown'`; otherwise the detector's answer is used, and a detector
exception leaves the default `'en'` in place. -/
def langDecision (text : Str) (outcome : LangOutcome) : Str :=
  let sample := text.take 1500
  if (strip sample).length < 20 then "unknown".data
  else match outcome with
    | .detected c => c
    | .failed => "en".data

/-- The per-file loop of `PDFProcessorApp.process_files` (lines
396–452), projected to the records written to the dataset file:
extraction failure ⇒ no record, `continue`; detected language other than
`'en'`/`'unknown'` ⇒ no record, `continue`; otherwise exactly one record
is written, embedding whatever summary/topics the Gemini step returned
(both `None` when generation failed). -/
def process_files : List FileJob → List Record
  | [] => []
  | j :: rest =>
    match j.extractResult with
    | none => process_files rest
    | some text =>
      let lang := langDecision text j.lang
      if lang ≠ "en".data ∧ lang ≠ "unknown".data then process_files rest
      else
        { pdf_filename := j.filename, extracted_text := text,
          gemini_summary := j.geminiResult.1,
          gemini_topics := j.geminiResult.2 } :: process_files rest

/-- Declarative per-file characterisation of the dataset: the record a
single file contributes, if any. -/
def recordOf (j : FileJob) : Option Record :=
  match j.extractResult with
  | none => none
  | some text =>
    let lang := langDecision text j.lang
    if lang ≠ "en".data ∧ lang ≠ "unknown".data then none
    else some { pdf_filename := j.filename, extracted_text := text,
                gemini_summary := j.geminiResult.1,
                gemini_topics := j.geminiResult.2 }

/-- Whether a file qualifies for a dataset record: extraction succeeded
and the language decision was English or inconclusive. -/
def qualifies (j : FileJob) : Bool :=
  match j.extractResult with
  | none => false
  | some text =>
    let lang := langDecision text j.lang
    if lang ≠ "en".data ∧ lang ≠ "unknown".data then false else true

end Vakyasaar.TrainSet

namespace Vakyasaar.Scrape

open Vakyasaar

/-- `OUTPUT_DIR` from `scrape.py`. -/
def OUTPUT_DIR : Str := "pib_archive_pdfs".data

/-- `COLLECTIVE_OUTPUT_DIR` from `scrape.py`. -/
def COLLECTIVE_OUTPUT_DIR : Str := "pib_archive_pdfs_collective".data

/-- `os.path.join` for the relative, separator-free components used
here. -/
def pathJoin (a b : Str) : Str := a ++ '/' :: b

/-- The filesystem as seen by the scraper: the set of existing
directories and the set of existing files, each a list of paths without
duplicates of meaning (membership is what the script tests). -/
structure FS where
  dirs : List Str
  files : List Str
deriving DecidableEq

/-- Create a directory if missing (one `mkdir -p` component). -/
def addDir (fs : FS) (d : Str) : FS :=
  if d ∈ fs.dirs then fs else { fs with dirs := fs.dirs ++ [d] }

/-- Record a file (a completed write or copy; overwriting keeps the
path). -/
def addFile (fs : FS) (p : Str) : FS :=
  if p ∈ fs.files then fs else { fs with files := fs.files ++ [p] }

/-- `os.makedirs(pdf_dir, exist_ok=True)` for
`pdf_dir = OUTPUT_DIR/<year>/<month>`: create the chain of missing
directories. -/
def makedirsDateDir (fs : FS) (year month : Nat) : FS :=
  let d1 := OUTPUT_DIR
  let d2 := pathJoin OUTPUT_DIR (natDigits year)
  let d3 := pathJoin d2 (zfill2 month)
  addDir (addDir (addDir fs d1) d2) d3

/-- The PDF filename built at line 47 of `scrape.py`:
`f"PIB_{relid}{year}{month_str}_{day_str}.pdf"` with `month_str` and
`day_str` zero-padded to two digits. -/
def pdfFilename (relid : Str) (year month day : Nat) : Str :=
  "PIB_".data ++ (relid ++ (natDigits year ++ (zfill2 month ++
    ('_' :: (zfill2 day ++ ".pdf".data)))))

/-- `save_page_as_pdf` (lines 37–111), with the browser's
print-to-PDF call modelled by `renderOk` (`false` = the navigation
wait or `page.pdf` raised, which the function catches).  Returns the
saved-new flag, the updated filesystem, and how many print-to-PDF
render attempts were made.  Control flow of the source: build the paths
and `makedirs` the date directory; if the file exists in the collective
folder, skip; else if it exists date-wise, copy it to the collective
folder and report not-new; else render the PDF into the date folder and
copy it to the collective folder; any exception is caught and reported
as `False`. -/
def save_page_as_pdf (fs : FS) (renderOk : Bool) (relid : Str)
    (year month day : Nat) : Bool × FS × Nat :=
  let fn := pdfFilename relid year month day
  let pdfDir := pathJoin (pathJoin OUTPUT_DIR (natDigits year)) (zfill2 month)
  let fs1 := makedirsDateDir fs year month
  let pdfPath := pathJoin pdfDir fn
  let collectivePath := pathJoin COLLECTIVE_OUTPUT_DIR fn
  if collectivePath ∈ fs1.files then (false, fs1, 0)
  else if pdfPath ∈ fs1.files then (false, addFile fs1 collectivePath, 0)
  else if renderOk then (true, addFile (addFile fs1 pdfPath) collectivePath, 1)
  else (false, fs1, 1)

/-- One collected release together with the outcomes of its external
browser calls: `gotoOk` is whether opening the print view succeeded,
`renderOk` whether the print-to-PDF render succeeded. -/
structure Item where
  relid : Str
  year : Nat
  month : Nat
  day : Nat
  gotoOk : Bool
  renderOk : Bool

/-- `process_single_release` (lines 113–157): open the print view in a
new tab — a navigation timeout or error is caught and leaves
`saved = False` with nothing touched — then delegate to
`save_page_as_pdf`. -/
def process_single_release (fs : FS) (it : Item) : Bool × FS × Nat :=
  if it.gotoOk then save_page_as_pdf fs it.renderOk it.relid it.year it.month it.day
  else (false, fs, 0)

/-- Phase 2 of the per-year loop (lines 287–310): run
`process_single_release` for every collected release and gather one
result per item. -/
def processYear (fs : FS) : List Item → List Bool × FS
  | [] => ([], fs)
  | it :: rest =>
    let r := process_single_release fs it
    let rec' := processYear r.2.1 rest
    (r.1 :: rec'.1, rec'.2)

end Vakyasaar.Scrape

/-! ## Theorems -/

namespace Vakyasaar

theorem natDigitsAux_fuel : ∀ f g n, n < f → n < g → natDigitsAux f n = natDigitsAux g n := by
  intro f
  induction f with
  | zero => intro g n h; omega
  | succ f ih =>
    intro g n hf hg
    cases g with
    | zero => omega
    | succ g =>
      simp only [natDigitsAux]
      by_cases h10 : n < 10
      · rw [if_pos h10, if_pos h10]
      · rw [if_neg h10, if_neg h10]
        have hd : n / 10 < n := Nat.div_lt_self (by omega) (by omega)
        rw [ih g (n / 10) (by omega) (by omega)]

theorem natDigits_eq (n : Nat) :
    natDigits n = if n < 10 then [digitChar n]
      else natDigits (n / 10) ++ [digitChar (n % 10)] := by
  unfold natDigits
  by_cases h10 : n < 10
  · simp only [natDigitsAux, if_pos h10]
  · simp only [natDigitsAux, if_neg h10]
    have hd : n / 10 < n := Nat.div_lt_self (by omega) (by omega)
    rw [natDigitsAux_fuel n (n / 10 + 1) (n / 10) (by omega) (by omega)]
    rfl

theorem natDigits_ne_nil (n : Nat) : natDigits n ≠ [] := by
  rw [natDigits_eq]
  split <;> simp

theorem natDigits_length_one (n : Nat) (h : n < 10) : (natDigits n).length = 1 := by
  rw [natDigits_eq, if_pos h]
  rfl

theorem natDigits_length_step (n : Nat) (h : 10 ≤ n) :
    (natDigits n).length = (natDigits (n / 10)).length + 1 := by
  rw [natDigits_eq, if_neg (by omega)]
  simp

theorem natDigits_length_two (n : Nat) (h : 10 ≤ n) (h' : n ≤ 99) :
    (natDigits n).length = 2 := by
  rw [natDigits_length_step n h, natDigits_length_one (n / 10) (by omega)]

theorem natDigits_length_three (n : Nat) (h : 100 ≤ n) (h' : n ≤ 999) :
    (natDigits n).length = 3 := by
  rw [natDigits_length_step n (by omega), natDigits_length_two (n / 10) (by omega) (by omega)]

theorem natDigits_length_four (n : Nat) (h : 1000 ≤ n) (h' : n ≤ 9999) :
    (natDigits n).length = 4 := by
  rw [natDigits_length_step n (by omega), natDigits_length_three (n / 10) (by omega) (by omega)]

theorem digitChar_inj : ∀ a, a < 10 → ∀ b, b < 10 → digitChar a = digitChar b → a = b := by
  decide

theorem natDigits_inj : ∀ a b, natDigits a = natDigits b → a = b := by
  intro a
  induction a using Nat.strong_induction_on with
  | _ a ih =>
    intro b h
    rw [natDigits_eq, natDigits_eq (n := b)] at h
    by_cases ha : a < 10 <;> by_cases hb : b < 10
    · rw [if_pos ha, if_pos hb] at h
      exact digitChar_inj a ha b hb (List.cons.injEq .. ▸ h |>.1)
    · rw [if_pos ha, if_neg hb] at h
      have := congrArg List.length h
      simp [natDigits_length_step b (by omega)] at this
      have hne := natDigits_ne_nil (b / 10)
      cases hh : natDigits (b / 10) with
      | nil => exact absurd hh hne
      | cons x xs => rw [hh] at this; simp at this
    · rw [if_neg ha, if_pos hb] at h
      have := congrArg List.length h
      simp at this
      have hne := natDigits_ne_nil (a / 10)
      cases hh : natDigits (a / 10) with
      | nil => exact absurd hh hne
      | cons x xs => rw [hh] at this; simp at this
    · rw [if_neg ha, if_neg hb] at h
      have hlen : ([digitChar (a % 10)] : Str).length = ([digitChar (b % 10)] : Str).length := rfl
      obtain ⟨h1, h2⟩ := List.append_inj' h hlen
      have hq : a / 10 = b / 10 :=
        ih (a / 10) (Nat.div_lt_self (by omega) (by omega)) (b / 10) h1
      have hm : a % 10 = b % 10 :=
        digitChar_inj (a % 10) (Nat.mod_lt _ (by omega)) (b % 10) (Nat.mod_lt _ (by omega))
          (List.cons.injEq .. ▸ h2 |>.1)
      omega

theorem zfill2_length (n : Nat) (h : n ≤ 99) : (zfill2 n).length = 2 := by
  unfold zfill2
  by_cases h10 : n < 10
  · rw [if_pos (by rw [natDigits_length_one n h10]; omega)]
    simp [natDigits_length_one n h10]
  · rw [if_neg (by rw [natDigits_length_two n (by omega) h]; omega)]
    exact natDigits_length_two n (by omega) h

theorem zfill2_inj_small : ∀ a, a < 32 → ∀ b, b < 32 → zfill2 a = zfill2 b → a = b := by
  decide

end Vakyasaar

namespace Vakyasaar.TrainSet

open Vakyasaar

theorem add_pdf_files_nodup (norm : Str → Str) :
    ∀ (fs : List Str) (cur : List Str), cur.Nodup → (add_pdf_files norm cur fs).Nodup := by
  intro fs
  induction fs with
  | nil => intro cur h; exact h
  | cons f fs ih =>
    intro cur h
    simp only [add_pdf_files, List.foldl_cons]
    by_cases hmem : norm f ∈ cur
    · rw [if_pos hmem]
      exact ih cur h
    · rw [if_neg hmem]
      refine ih (cur ++ [norm f]) ?_
      simp [List.nodup_append, h, hmem]

theorem runFileOps_aux (norm : Str → Str) :
    ∀ (ops : List FileOp) (cur : List Str), cur.Nodup →
      (ops.foldl (fun cur op =>
        match op with
        | .add fs => add_pdf_files norm cur fs
        | .clear => clear_files cur) cur).Nodup := by
  intro ops
  induction ops with
  | nil => intro cur h; exact h
  | cons op ops ih =>
    intro cur h
    rw [List.foldl_cons]
    cases op with
    | add fs => exact ih _ (add_pdf_files_nodup norm fs cur h)
    | clear => exact ih _ List.nodup_nil

/-- C10: after every sequence of add and clear operations starting from
the empty list set up in `__init__`, the entries of `pdf_files` are
pairwise distinct: `add_pdf_files` appends a normalised path only when it
is not already present, and `clear_files` empties the list. -/
theorem pdf_files_nodup (norm : Str → Str) (ops : List FileOp) :
    (runFileOps norm ops).Nodup :=
  runFileOps_aux norm ops [] List.nodup_nil

/-- C9: the `process_files` loop writes exactly one dataset record for
every file whose text extraction succeeds and whose language decision is
English or inconclusive — including files where summary generation
failed, which are written with the `none` summary and topics the Gemini
step returned — and no record for files whose extraction fails or whose
detected language is another language. -/
theorem process_files_one_record_per_qualifying_file (jobs : List FileJob) :
    process_files jobs = jobs.filterMap recordOf ∧
    (process_files jobs).length = (jobs.filter qualifies).length := by
  constructor
  · induction jobs with
    | nil => rfl
    | cons j rest ih =>
      cases h : j.extractResult with
      | none => simp [process_files, recordOf, h, ih]
      | some t =>
        simp only [process_files, recordOf, h, List.filterMap_cons]
        split <;> simp [ih]
  · induction jobs with
    | nil => rfl
    | cons j rest ih =>
      cases h : j.extractResult with
      | none => simp [process_files, qualifies, h, ih]
      | some t =>
        simp only [process_files, qualifies, h, List.filter_cons]
        split <;> simp [ih]

/-- C8: with `GEMINI_API_KEY` unset or empty, `configure_gemini` returns
`False` without configuring a model, and `__init__` treats this as
fatal: it schedules destruction of the root window, creates no widgets
and never initialises `pdf_files`. -/
theorem missing_api_key_fatal (apiKey : Option Str) (clientOk : Bool)
    (h : apiKey = none ∨ apiKey = some []) :
    configure_gemini apiKey clientOk = (false, none) ∧
    appInit apiKey clientOk =
      { model := none, destroyScheduled := true, widgetsCreated := false,
        pdfFilesInitialized := false } := by
  rcases h with rfl | rfl <;>
    cases clientOk <;> simp [configure_gemini, appInit]

/-- Witness for C8 at the concrete input `apiKey = none`. -/
theorem missing_api_key_fatal_witness :
    configure_gemini none true = (false, none) ∧
    appInit none true =
      { model := none, destroyScheduled := true, widgetsCreated := false,
        pdfFilesInitialized := false } :=
  missing_api_key_fatal none true (Or.inl rfl)

/-- C7: the cleanup pipeline maps the spec's example input
`"Press Information Bureau\n\n\n\nHello   world [1] http://x.com"` to
exactly `"Hello world"`. -/
theorem cleanText_concrete_example :
    cleanText "Press Information Bureau\n\n\n\nHello   world [1] http://x.com".data =
      "Hello world".data := by
  decide

/-- C4: the topics-parse step hands `json.loads` exactly the block with
every `//`-prefixed (after stripping) line removed; it yields `none`
exactly when the parse fails or produces a non-array value, returns any
parsed array unchanged, and always passes the summary through. -/
theorem topics_parse_step_spec (parse : Str → Option Json) (summary tjs : Str) :
    (topicsParseStep parse summary tjs).1 = summary ∧
    ((topicsParseStep parse summary tjs).2 = none ↔
      parse (joinN ((splitlines tjs).filter (fun l => !leadsWith "//".data (strip l)))) = none ∨
      ∃ v, parse (joinN ((splitlines tjs).filter (fun l => !leadsWith "//".data (strip l)))) = some v ∧
        v.isArr = false) ∧
    (∀ v, parse (joinN ((splitlines tjs).filter (fun l => !leadsWith "//".data (strip l)))) = some v →
      v.isArr = true → (topicsParseStep parse summary tjs).2 = some v) := by
  refine ⟨?_, ?_, ?_⟩
  · simp only [topicsParseStep]
    cases h : parse (stripCommentLines tjs) with
    | none => rfl
    | some v =>
      dsimp only
      split <;> rfl
  · simp only [topicsParseStep, stripCommentLines]
    cases h : parse (joinN ((splitlines tjs).filter (fun l => !leadsWith "//".data (strip l)))) with
    | none => simp [h]
    | some v =>
      simp only [h]
      cases hv : v.isArr <;> simp [hv]
  · intro v hv harr
    simp only [topicsParseStep, stripCommentLines, hv]
    simp [harr]

/-- Witness for C4: a parse returning the empty JSON array is accepted
and returned. -/
theorem topics_parse_step_witness :
    (topicsParseStep (fun _ => some (Json.arr [])) "s".data "[]".data).2 =
      some (Json.arr []) :=
  (topics_parse_step_spec (fun _ => some (Json.arr [])) "s".data "[]".data).2.2
    (Json.arr []) rfl rfl

end Vakyasaar.TrainSet

namespace Vakyasaar.Scrape

open Vakyasaar

theorem addDir_files (fs : FS) (d : Str) : (addDir fs d).files = fs.files := by
  unfold addDir
  split <;> rfl

theorem makedirs_files (fs : FS) (year month : Nat) :
    (makedirsDateDir fs year month).files = fs.files := by
  unfold makedirsDateDir
  simp [addDir_files]

/-- C5 (amended): when the constructed filename already exists in the
collective folder, `save_page_as_pdf` reports not-newly-saved, renders
no PDF and writes or copies no file — the set of files is unchanged.
(The date-wise directory chain may still be created: `os.makedirs` runs
before the existence check, see the counterexample.) -/
theorem save_page_skip_existing_collective (fs : FS) (renderOk : Bool)
    (relid : Str) (year month day : Nat)
    (h : pathJoin COLLECTIVE_OUTPUT_DIR (pdfFilename relid year month day) ∈ fs.files) :
    (save_page_as_pdf fs renderOk relid year month day).1 = false ∧
    ((save_page_as_pdf fs renderOk relid year month day).2.1).files = fs.files ∧
    (save_page_as_pdf fs renderOk relid year month day).2.2 = 0 := by
  have hf := makedirs_files fs year month
  unfold save_page_as_pdf
  rw [if_pos (by rw [hf]; exact h)]
  exact ⟨rfl, hf, rfl⟩

/-- C5, counterexample to the claim as stated: with the collective file
present but the date-wise directory chain absent, the call does change
the filesystem state — `os.makedirs(pdf_dir, exist_ok=True)` runs before
the collective-folder existence check and creates the directories. -/
theorem save_page_skip_not_fs_unchanged :
    ¬ ((save_page_as_pdf
        ⟨[], [pathJoin COLLECTIVE_OUTPUT_DIR (pdfFilename "123".data 2004 5 6)]⟩
        true "123".data 2004 5 6).2.1 =
      ⟨[], [pathJoin COLLECTIVE_OUTPUT_DIR (pdfFilename "123".data 2004 5 6)]⟩) := by
  decide

/-- Witness for the amended C5 at a concrete filesystem. -/
theorem save_page_skip_existing_collective_witness :
    (save_page_as_pdf
        ⟨[], [pathJoin COLLECTIVE_OUTPUT_DIR (pdfFilename "123".data 2004 5 6)]⟩
        true "123".data 2004 5 6).1 = false ∧
    ((save_page_as_pdf
        ⟨[], [pathJoin COLLECTIVE_OUTPUT_DIR (pdfFilename "123".data 2004 5 6)]⟩
        true "123".data 2004 5 6).2.1).files =
      [pathJoin COLLECTIVE_OUTPUT_DIR (pdfFilename "123".data 2004 5 6)] ∧
    (save_page_as_pdf
        ⟨[], [pathJoin COLLECTIVE_OUTPUT_DIR (pdfFilename "123".data 2004 5 6)]⟩
        true "123".data 2004 5 6).2.2 = 0 :=
  save_page_skip_existing_collective
    ⟨[], [pathJoin COLLECTIVE_OUTPUT_DIR (pdfFilename "123".data 2004 5 6)]⟩
    true "123".data 2004 5 6 (List.mem_singleton.mpr rfl)

/-- C6: per-item failures never propagate.  The per-year loop yields one
result for every collected item; a navigation failure leaves the item
reported `False` with the filesystem untouched; and a render failure is
caught inside `save_page_as_pdf` and reported as `False` whatever the
filesystem state. -/
theorem per_item_failures_nonpropagating :
    (∀ (fs : FS) (items : List Item), ((processYear fs items).1).length = items.length) ∧
    (∀ (fs : FS) (it : Item), it.gotoOk = false →
      process_single_release fs it = (false, fs, 0)) ∧
    (∀ (fs : FS) (it : Item), it.renderOk = false →
      (process_single_release fs it).1 = false) := by
  refine ⟨?_, ?_, ?_⟩
  · intro fs items
    induction items generalizing fs with
    | nil => rfl
    | cons it rest ih => simp [processYear, ih]
  · intro fs it h
    unfold process_single_release
    rw [h]
    rfl
  · intro fs it h
    unfold process_single_release
    split
    · simp only [save_page_as_pdf, h]
      split
      · rfl
      · split
        · rfl
        · simp
    · rfl

/-- Witness for C6: a one-item year whose navigation fails still yields
one result, and the failed item reports `False` with the state
untouched. -/
theorem per_item_failures_nonpropagating_witness :
    ((processYear ⟨[], []⟩ [⟨"1".data, 2004, 1, 1, false, true⟩]).1).length =
      [(⟨"1".data, 2004, 1, 1, false, true⟩ : Item)].length ∧
    process_single_release ⟨[], []⟩ ⟨"1".data, 2004, 1, 1, false, true⟩ =
      (false, ⟨[], []⟩, 0) :=
  ⟨per_item_failures_nonpropagating.1 ⟨[], []⟩ [⟨"1".data, 2004, 1, 1, false, true⟩],
   per_item_failures_nonpropagating.2.1 ⟨[], []⟩ ⟨"1".data, 2004, 1, 1, false, true⟩ rfl⟩

end Vakyasaar.Scrape


namespace Vakyasaar.Scrape

open Vakyasaar

/-- C2: the filename `PIB_{relid}{year}{month_str}_{day_str}.pdf` built
by `save_page_as_pdf` is deterministic — `pdfFilename` is a function of
the tuple, so equal tuples give equal names definitionally — and
injective on tuples of a digit-string release id, a four-digit year and
valid month and day: equal filenames force equal tuples, so distinct
tuples give distinct filenames. -/
theorem pdfFilename_deterministic_injective
    (r₁ r₂ : Str) (y₁ y₂ m₁ m₂ d₁ d₂ : Nat)
    (hr₁ : r₁.all isDigitC = true) (hr₂ : r₂.all isDigitC = true)
    (hy₁ : 1000 ≤ y₁) (hy₁' : y₁ ≤ 9999) (hy₂ : 1000 ≤ y₂) (hy₂' : y₂ ≤ 9999)
    (hm₁ : 1 ≤ m₁) (hm₁' : m₁ ≤ 12) (hm₂ : 1 ≤ m₂) (hm₂' : m₂ ≤ 12)
    (hd₁ : 1 ≤ d₁) (hd₁' : d₁ ≤ 31) (hd₂ : 1 ≤ d₂) (hd₂' : d₂ ≤ 31)
    (h : pdfFilename r₁ y₁ m₁ d₁ = pdfFilename r₂ y₂ m₂ d₂) :
    r₁ = r₂ ∧ y₁ = y₂ ∧ m₁ = m₂ ∧ d₁ = d₂ := by
  unfold pdfFilename at h
  have h1 := List.append_cancel_left h
  have hX : (natDigits y₁ ++ (zfill2 m₁ ++ ('_' :: (zfill2 d₁ ++ ".pdf".data)))).length =
      (natDigits y₂ ++ (zfill2 m₂ ++ ('_' :: (zfill2 d₂ ++ ".pdf".data)))).length := by
    simp [natDigits_length_four y₁ hy₁ hy₁', natDigits_length_four y₂ hy₂ hy₂',
      zfill2_length m₁ (by omega), zfill2_length m₂ (by omega),
      zfill2_length d₁ (by omega), zfill2_length d₂ (by omega)]
  obtain ⟨hr, h2⟩ := List.append_inj' h1 hX
  obtain ⟨hy, h3⟩ := List.append_inj h2
    (by rw [natDigits_length_four y₁ hy₁ hy₁', natDigits_length_four y₂ hy₂ hy₂'])
  obtain ⟨hm, h4⟩ := List.append_inj h3
    (by rw [zfill2_length m₁ (by omega), zfill2_length m₂ (by omega)])
  have h5 : zfill2 d₁ ++ ".pdf".data = zfill2 d₂ ++ ".pdf".data :=
    (List.cons.injEq .. ▸ h4).2
  obtain ⟨hd, -⟩ := List.append_inj h5
    (by rw [zfill2_length d₁ (by omega), zfill2_length d₂ (by omega)])
  exact ⟨hr, natDigits_inj y₁ y₂ hy,
    zfill2_inj_small m₁ (by omega) m₂ (by omega) hm,
    zfill2_inj_small d₁ (by omega) d₂ (by omega) hd⟩

/-- Witness for C2 at a concrete tuple. -/
theorem pdfFilename_deterministic_injective_witness :
    "1066".data = "1066".data ∧ 2004 = 2004 ∧ 3 = 3 ∧ 15 = 15 :=
  pdfFilename_deterministic_injective "1066".data "1066".data 2004 2004 3 3 15 15
    (by decide) (by decide) (by decide) (by decide) (by decide) (by decide)
    (by decide) (by decide) (by decide) (by decide) (by decide) (by decide)
    (by decide) (by decide) rfl

end Vakyasaar.Scrape

namespace Vakyasaar

theorem leadsWith_nil_left (s : Str) : leadsWith [] s = true := rfl

theorem leadsWith_length_le {p s : Str} (h : leadsWith p s = true) : p.length ≤ s.length := by
  induction p generalizing s with
  | nil => simp
  | cons a p ih =>
    cases s with
    | nil => simp [leadsWith] at h
    | cons b s =>
      simp only [leadsWith, Bool.and_eq_true] at h
      have := ih h.2
      simp only [List.length_cons]
      omega

theorem strFind_eq_some_iff (p : Str) :
    ∀ (t : Str) (i : Nat), strFind p t = some i ↔
      (leadsWith p (t.drop i) = true ∧ ∀ k, k < i → ¬ leadsWith p (t.drop k) = true) := by
  intro t
  induction t with
  | nil =>
    intro i
    simp only [strFind, List.drop_nil]
    by_cases hp : leadsWith p [] = true
    · rw [if_pos hp]
      constructor
      · intro h
        have : i = 0 := (Option.some.inj h).symm
        subst this
        exact ⟨hp, by omega⟩
      · rintro ⟨-, hmin⟩
        cases i with
        | zero => rfl
        | succ j => exact absurd hp (hmin 0 (by omega))
    · rw [if_neg hp]
      simp [hp]
  | cons c t' ih =>
    intro i
    simp only [strFind]
    by_cases hp : leadsWith p (c :: t') = true
    · rw [if_pos hp]
      constructor
      · intro h
        have : i = 0 := (Option.some.inj h).symm
        subst this
        exact ⟨by simpa using hp, by omega⟩
      · rintro ⟨-, hmin⟩
        cases i with
        | zero => rfl
        | succ j => exact absurd hp (by simpa using hmin 0 (by omega))
    · rw [if_neg hp]
      cases i with
      | zero =>
        simp only [List.drop_zero]
        constructor
        · intro h
          obtain ⟨a, -, ha⟩ := Option.map_eq_some'.mp h
          omega
        · rintro ⟨hpre, -⟩
          exact absurd hpre hp
      | succ j =>
        rw [List.drop_succ_cons]
        constructor
        · intro h
          obtain ⟨a, hfind, ha⟩ := Option.map_eq_some'.mp h
          have haj : a = j := by omega
          rw [haj] at hfind
          obtain ⟨h1, h2⟩ := (ih j).mp hfind
          refine ⟨h1, ?_⟩
          intro k hk
          cases k with
          | zero => simpa using hp
          | succ k' =>
            rw [List.drop_succ_cons]
            exact h2 k' (by omega)
        · rintro ⟨hpre, hmin⟩
          have hmin' : ∀ k, k < j → ¬ leadsWith p (t'.drop k) = true := by
            intro k hk
            have := hmin (k + 1) (by omega)
            rwa [List.drop_succ_cons] at this
          have hfind : strFind p t' = some j := (ih j).mpr ⟨hpre, hmin'⟩
          rw [Option.map_eq_some']
          exact ⟨j, hfind, rfl⟩

theorem strFind_eq_none_iff (p : Str) :
    ∀ t : Str, strFind p t = none ↔ ∀ i, ¬ leadsWith p (t.drop i) = true := by
  intro t
  induction t with
  | nil =>
    simp only [strFind, List.drop_nil]
    by_cases hp : leadsWith p [] = true
    · rw [if_pos hp]
      simp [hp]
    · rw [if_neg hp]
      simp [hp]
  | cons c t' ih =>
    simp only [strFind]
    by_cases hp : leadsWith p (c :: t') = true
    · rw [if_pos hp]
      constructor
      · intro h
        simp at h
      · intro h
        exact absurd hp (by simpa using h 0)
    · rw [if_neg hp]
      rw [Option.map_eq_none']
      rw [ih]
      constructor
      · intro h i
        cases i with
        | zero => simpa using hp
        | succ k =>
          rw [List.drop_succ_cons]
          exact h k
      · intro h k
        have := h (k + 1)
        rwa [List.drop_succ_cons] at this

theorem strFind_firstOccur (p t : Str) (i : Nat) :
    strFind p t = some i ↔ firstOccur p t i := by
  rw [strFind_eq_some_iff]
  unfold firstOccur occursAt
  constructor
  · rintro ⟨h1, h2⟩
    refine ⟨⟨?_, h1⟩, fun k hk hocc => h2 k hk hocc.2⟩
    by_cases hp : p = []
    · subst hp
      by_contra hgt
      exact h2 t.length (by omega) (leadsWith_nil_left _)
    · have hlen := leadsWith_length_le h1
      have hp' : 0 < p.length := List.length_pos.mpr hp
      rw [List.length_drop] at hlen
      omega
  · rintro ⟨⟨hle, h1⟩, h2⟩
    exact ⟨h1, fun k hk hl => h2 k hk ⟨by omega, hl⟩⟩

theorem firstOccur_unique {p t : Str} {i j : Nat}
    (hi : firstOccur p t i) (hj : firstOccur p t j) : i = j := by
  by_contra hne
  rcases Nat.lt_or_ge i j with h | h
  · exact hj.2 i h hi.1
  · exact hi.2 j (by omega) hj.1

theorem drop_then_drop (t : Str) (m a : Nat) :
    List.drop a (List.drop m t) = List.drop (a + m) t := by
  rw [List.drop_drop]
  congr 1
  omega

theorem strFindFrom_eq_some_iff (t p : Str) (m : Nat) (hm : m ≤ t.length) (j : Nat) :
    strFindFrom t p m = some j ↔
      (occursAt p t j ∧ m ≤ j ∧ ∀ k, k < j → m ≤ k → ¬ occursAt p t k) := by
  unfold strFindFrom
  rw [Option.map_eq_some']
  constructor
  · rintro ⟨a, hfind, ha⟩
    obtain ⟨h1, h2⟩ := (strFind_eq_some_iff p (t.drop m) a).mp hfind
    rw [drop_then_drop] at h1
    have hj : a + m = j := ha
    subst hj
    have hjle : a + m ≤ t.length := by
      by_cases hp : p = []
      · subst hp
        have ha0 : a = 0 := by
          by_contra h0
          exact h2 0 (by omega) (leadsWith_nil_left _)
        omega
      · have hlen := leadsWith_length_le h1
        have hp' : 0 < p.length := List.length_pos.mpr hp
        rw [List.length_drop] at hlen
        omega
    refine ⟨⟨hjle, h1⟩, by omega, ?_⟩
    intro k hk hmk hocc
    have := h2 (k - m) (by omega)
    rw [drop_then_drop] at this
    have hkm : k - m + m = k := by omega
    rw [hkm] at this
    exact this hocc.2
  · rintro ⟨⟨hjle, hjl⟩, hmj, hmin⟩
    refine ⟨j - m, ?_, by omega⟩
    rw [strFind_eq_some_iff]
    constructor
    · rw [drop_then_drop]
      have : j - m + m = j := by omega
      rw [this]
      exact hjl
    · intro k hk
      rw [drop_then_drop]
      intro hl
      exact hmin (k + m) (by omega) (by omega) ⟨by omega, hl⟩

theorem strFindFrom_eq_none_iff (t p : Str) (m : Nat) (hm : m ≤ t.length) :
    strFindFrom t p m = none ↔ ∀ j, m ≤ j → ¬ occursAt p t j := by
  unfold strFindFrom
  rw [Option.map_eq_none', strFind_eq_none_iff]
  constructor
  · intro h j hmj hocc
    have := h (j - m)
    rw [drop_then_drop] at this
    have hjm : j - m + m = j := by omega
    rw [hjm] at this
    exact this hocc.2
  · intro h i
    rw [drop_then_drop]
    intro hl
    by_cases hp : p = []
    · subst hp
      exact h m le_rfl ⟨hm, leadsWith_nil_left _⟩
    · have hlen := leadsWith_length_le hl
      have hp' : 0 < p.length := List.length_pos.mpr hp
      rw [List.length_drop] at hlen
      exact h (i + m) (by omega) ⟨by omega, hl⟩

end Vakyasaar

namespace Vakyasaar.TrainSet

open Vakyasaar

theorem firstOccur_len_le {s t : Str} {i : Nat} (hfo : firstOccur s t i) :
    i + s.length ≤ t.length := by
  obtain ⟨⟨hle, hl⟩, hmin⟩ := hfo
  by_cases hp : s = []
  · subst hp
    simpa using hle
  · have hlen := leadsWith_length_le hl
    have hp' : 0 < s.length := List.length_pos.mpr hp
    rw [List.length_drop] at hlen
    omega

/-- C3: `extract_between_markers` returns `None` exactly when the start
marker does not occur in the text, or the end marker does not occur at
or after the end of the first start-marker occurrence; otherwise it
returns exactly the substring strictly between the end of the first
start-marker occurrence and the next end-marker occurrence, with
whitespace stripped from both ends. -/
theorem extract_between_markers_spec (t s e : Str) :
    (extract_between_markers t s e = none ↔
      (∀ i, ¬ occursAt s t i) ∨
      (∃ i, firstOccur s t i ∧ ∀ j, i + s.length ≤ j → ¬ occursAt e t j)) ∧
    (∀ i j, firstOccur s t i → occursAt e t j → i + s.length ≤ j →
      (∀ k, k < j → i + s.length ≤ k → ¬ occursAt e t k) →
      extract_between_markers t s e =
        some (strip ((t.drop (i + s.length)).take (j - (i + s.length))))) := by
  constructor
  · unfold extract_between_markers
    cases hf : strFind s t with
    | none =>
      rw [strFind_eq_none_iff] at hf
      constructor
      · intro _
        exact Or.inl (fun i hocc => hf i hocc.2)
      · intro _
        rfl
    | some i =>
      have hfo : firstOccur s t i := (strFind_firstOccur s t i).mp hf
      have hile : i + s.length ≤ t.length := firstOccur_len_le hfo
      cases hg : strFindFrom t e (i + s.length) with
      | none =>
        constructor
        · intro _
          exact Or.inr ⟨i, hfo, fun j hj =>
            (strFindFrom_eq_none_iff t e _ hile).mp hg j hj⟩
        · intro _
          simp only [hg]
      | some j =>
        constructor
        · intro h
          simp [hg] at h
        · rintro (hno | ⟨i', hfo', hend⟩)
          · exact absurd hfo.1 (hno i)
          · have hii : i' = i := firstOccur_unique hfo' hfo
            subst hii
            have hocc := (strFindFrom_eq_some_iff t e _ hile j).mp hg
            exact absurd hocc.1 (hend j hocc.2.1)
  · intro i j hfo hocc hle hmin
    unfold extract_between_markers
    have hf : strFind s t = some i := (strFind_firstOccur s t i).mpr hfo
    rw [hf]
    have hile : i + s.length ≤ t.length := firstOccur_len_le hfo
    have hg : strFindFrom t e (i + s.length) = some j :=
      (strFindFrom_eq_some_iff t e _ hile j).mpr ⟨hocc, hle, hmin⟩
    simp only [hg]

/-- Witness for C3 on a concrete text: the block between `[S]` and `[E]`
in `"x[S] y [E]z"` is extracted and stripped. -/
theorem extract_between_markers_spec_witness :
    extract_between_markers "x[S] y [E]z".data "[S]".data "[E]".data =
      some "y".data := by
  rw [(extract_between_markers_spec "x[S] y [E]z".data "[S]".data "[E]".data).2 1 7
    (by decide) (by decide) (by decide) (by decide)]
  decide

end Vakyasaar.TrainSet

namespace Vakyasaar

theorem lstrip_head_not_ws : ∀ (s : Str) (c : Char), (lstrip s).head? = some c → isPyWs c = false := by
  intro s
  induction s with
  | nil => intro c h; simp [lstrip] at h
  | cons a s ih =>
    intro c h
    by_cases ha : isPyWs a
    · rw [lstrip, if_pos ha] at h
      exact ih c h
    · rw [lstrip, if_neg ha] at h
      simp only [List.head?_cons, Option.some.injEq] at h
      subst h
      simpa using ha

theorem rstrip_getLast_not_ws (s : Str) (c : Char) :
    (rstrip s).getLast? = some c → isPyWs c = false := by
  intro h
  unfold rstrip at h
  rw [List.getLast?_reverse] at h
  exact lstrip_head_not_ws s.reverse c h

theorem lstrip_eq_self (s : Str) (h : ∀ c, s.head? = some c → isPyWs c = false) :
    lstrip s = s := by
  cases s with
  | nil => rfl
  | cons a s =>
    rw [lstrip, if_neg]
    simp [h a rfl]

theorem rstrip_eq_self (s : Str) (h : ∀ c, s.getLast? = some c → isPyWs c = false) :
    rstrip s = s := by
  unfold rstrip
  rw [lstrip_eq_self s.reverse, List.reverse_reverse]
  intro c hc
  rw [List.head?_reverse] at hc
  exact h c hc

theorem lstrip_suffix_ex : ∀ s : Str, ∃ u, s = u ++ lstrip s := by
  intro s
  induction s with
  | nil => exact ⟨[], rfl⟩
  | cons a s ih =>
    by_cases ha : isPyWs a
    · obtain ⟨u, hu⟩ := ih
      refine ⟨a :: u, ?_⟩
      rw [lstrip, if_pos ha]
      rw [List.cons_append]
      rw [hu] at *
      rw [← hu]
    · exact ⟨[], by rw [lstrip, if_neg ha]; rfl⟩

theorem rstrip_append_ex (s : Str) : ∃ v, s = rstrip s ++ v := by
  obtain ⟨u, hu⟩ := lstrip_suffix_ex s.reverse
  refine ⟨u.reverse, ?_⟩
  conv_lhs => rw [← List.reverse_reverse s, hu]
  rw [List.reverse_append]
  rfl

theorem mem_lstrip {c : Char} {s : Str} (h : c ∈ lstrip s) : c ∈ s := by
  obtain ⟨u, hu⟩ := lstrip_suffix_ex s
  rw [hu]
  exact List.mem_append_right u h

theorem mem_rstrip {c : Char} {s : Str} (h : c ∈ rstrip s) : c ∈ s := by
  obtain ⟨v, hv⟩ := rstrip_append_ex s
  rw [hv]
  exact List.mem_append_left v h

theorem mem_strip {c : Char} {s : Str} (h : c ∈ strip s) : c ∈ s :=
  mem_lstrip (mem_rstrip h)

theorem strip_head_not_ws (s : Str) (c : Char) :
    (strip s).head? = some c → isPyWs c = false := by
  intro h
  unfold strip at h
  obtain ⟨v, hv⟩ := rstrip_append_ex (lstrip s)
  have hne : rstrip (lstrip s) ≠ [] := by
    intro hnil
    rw [hnil] at h
    simp at h
  have hhead : (lstrip s).head? = some c := by
    rw [hv]
    cases hr : rstrip (lstrip s) with
    | nil => exact absurd hr hne
    | cons x xs =>
      rw [hr] at h
      simp only [List.head?_cons, Option.some.injEq] at h
      subst h
      rfl
  exact lstrip_head_not_ws s c hhead

theorem strip_getLast_not_ws (s : Str) (c : Char) :
    (strip s).getLast? = some c → isPyWs c = false :=
  rstrip_getLast_not_ws (lstrip s) c

theorem strip_eq_self (s : Str)
    (h1 : ∀ c, s.head? = some c → isPyWs c = false)
    (h2 : ∀ c, s.getLast? = some c → isPyWs c = false) :
    strip s = s := by
  unfold strip
  rw [lstrip_eq_self s h1, rstrip_eq_self s h2]

end Vakyasaar

namespace Vakyasaar

theorem splitlines_nl (cs : Str) : splitlines ('\n' :: cs) = [] :: splitlines cs := by
  conv_lhs => rw [splitlines.eq_def]
  dsimp only
  rw [if_pos rfl]

theorem splitlines_cr_nl (cs2 : Str) :
    splitlines ('\r' :: '\n' :: cs2) = [] :: splitlines cs2 := by
  conv_lhs => rw [splitlines.eq_def]
  dsimp only
  rw [if_neg (by decide), if_pos rfl, if_pos rfl]

theorem splitlines_cr_other (c2 : Char) (cs2 : Str) (h3 : c2 ≠ '\n') :
    splitlines ('\r' :: c2 :: cs2) = [] :: splitlines (c2 :: cs2) := by
  conv_lhs => rw [splitlines.eq_def]
  dsimp only
  rw [if_neg (by decide), if_pos rfl, if_neg h3]

theorem splitlines_other_nil (c : Char) (cs : Str) (h1 : c ≠ '\n') (h2 : c ≠ '\r')
    (h : splitlines cs = []) : splitlines (c :: cs) = [[c]] := by
  conv_lhs => rw [splitlines.eq_def]
  dsimp only
  rw [if_neg h1, if_neg h2, h]

theorem splitlines_other_cons (c : Char) (cs : Str) (h1 : c ≠ '\n') (h2 : c ≠ '\r')
    (l : Str) (ls : List Str) (h : splitlines cs = l :: ls) :
    splitlines (c :: cs) = (c :: l) :: ls := by
  conv_lhs => rw [splitlines.eq_def]
  dsimp only
  rw [if_neg h1, if_neg h2, h]

theorem splitlines_ne_nil (c : Char) (cs : Str) : splitlines (c :: cs) ≠ [] := by
  by_cases h1 : c = '\n'
  · subst h1
    rw [splitlines_nl]
    simp
  · by_cases h2 : c = '\r'
    · subst h2
      cases cs with
      | nil => decide
      | cons c2 cs2 =>
        by_cases h3 : c2 = '\n'
        · subst h3
          rw [splitlines_cr_nl]
          simp
        · rw [splitlines_cr_other c2 cs2 h3]
          simp
    · cases h : splitlines cs with
      | nil =>
        rw [splitlines_other_nil c cs h1 h2 h]
        simp
      | cons l ls =>
        rw [splitlines_other_cons c cs h1 h2 l ls h]
        simp

theorem splitlines_eq_nil_iff (s : Str) : splitlines s = [] ↔ s = [] := by
  cases s with
  | nil => simp [splitlines]
  | cons c cs => simp [splitlines_ne_nil c cs]

theorem splitlines_line_chars : ∀ (s : Str), ∀ l ∈ splitlines s, '\n' ∉ l ∧ '\r' ∉ l := by
  intro s
  induction s using splitlines.induct with
  | case1 => intro l hl; simp [splitlines] at hl
  | case2 cs ih =>
    intro l hl
    rw [splitlines_nl] at hl
    rcases List.mem_cons.mp hl with rfl | hl
    · simp
    · exact ih l hl
  | case3 hne =>
    intro l hl
    have : splitlines ['\r'] = [[]] := rfl
    rw [this] at hl
    rcases List.mem_singleton.mp hl with rfl
    simp
  | case4 cs2 hne ih =>
    intro l hl
    rw [splitlines_cr_nl] at hl
    rcases List.mem_cons.mp hl with rfl | hl
    · simp
    · exact ih l hl
  | case5 c2 cs2 h3 hne ih =>
    intro l hl
    rw [splitlines_cr_other c2 cs2 h3] at hl
    rcases List.mem_cons.mp hl with rfl | hl
    · simp
    · exact ih l hl
  | case6 c cs h1 h2 hnil ih =>
    intro l hl
    rw [splitlines_other_nil c cs h1 h2 hnil] at hl
    rcases List.mem_singleton.mp hl with rfl
    simp only [List.mem_singleton]
    exact ⟨fun hc => h1 hc.symm, fun hc => h2 hc.symm⟩
  | case7 c cs h1 h2 l0 ls0 hcons ih =>
    intro l hl
    rw [splitlines_other_cons c cs h1 h2 l0 ls0 hcons] at hl
    rcases List.mem_cons.mp hl with rfl | hl
    · have hmem : l0 ∈ splitlines cs := by rw [hcons]; simp
      have := ih l0 hmem
      simp only [List.mem_cons]
      constructor
      · rintro (rfl | hc)
        · exact h1 rfl
        · exact this.1 hc
      · rintro (rfl | hc)
        · exact h2 rfl
        · exact this.2 hc
    · exact ih l (by rw [hcons]; exact List.mem_cons_of_mem l0 hl)

theorem getLast?_cons_ne_nil (a : Char) (l : Str) (h : l ≠ []) :
    (a :: l).getLast? = l.getLast? := by
  cases l with
  | nil => exact absurd rfl h
  | cons b t => exact List.getLast?_cons_cons

theorem joinN_cons_of_ne_nil (l : Str) (ls : List Str) (h : ls ≠ []) :
    joinN (l :: ls) = l ++ '\n' :: joinN ls := by
  cases ls with
  | nil => exact absurd rfl h
  | cons l2 ls2 => rfl

theorem joinN_cons_cons (c : Char) (l : Str) (ls : List Str) :
    joinN ((c :: l) :: ls) = c :: joinN (l :: ls) := by
  cases ls with
  | nil => rfl
  | cons l2 ls2 => rfl

theorem joinN_head? (l : Str) (ls : List Str) (h : l ≠ []) :
    (joinN (l :: ls)).head? = l.head? := by
  cases ls with
  | nil => rfl
  | cons l2 ls2 =>
    cases l with
    | nil => exact absurd rfl h
    | cons c t => rfl

theorem mem_joinN {c : Char} : ∀ {ls : List Str}, c ∈ joinN ls → (∃ l ∈ ls, c ∈ l) ∨ c = '\n' := by
  intro ls
  induction ls with
  | nil => intro h; simp [joinN] at h
  | cons l ls ih =>
    intro h
    cases ls with
    | nil => exact Or.inl ⟨l, by simp, h⟩
    | cons l2 ls2 =>
      rw [joinN_cons_of_ne_nil l _ (by simp)] at h
      rcases List.mem_append.mp h with h | h
      · exact Or.inl ⟨l, by simp, h⟩
      · rcases List.mem_cons.mp h with h | h
        · exact Or.inr h
        · rcases ih h with ⟨l', hl', hc⟩ | h
          · exact Or.inl ⟨l', List.mem_cons_of_mem l hl', hc⟩
          · exact Or.inr h

theorem joinN_splitlines : ∀ s : Str, '\r' ∉ s → s.getLast? ≠ some '\n' →
    joinN (splitlines s) = s := by
  intro s
  induction s using splitlines.induct with
  | case1 => intro _ _; rfl
  | case2 cs ih =>
    intro hcr hlast
    rw [splitlines_nl]
    cases hcs : splitlines cs with
    | nil =>
      have hcse : cs = [] := (splitlines_eq_nil_iff cs).mp hcs
      subst hcse
      simp at hlast
    | cons l ls =>
      have hcsne : cs ≠ [] := by
        intro h
        rw [h] at hcs
        simp [splitlines] at hcs
      rw [joinN_cons_of_ne_nil [] (l :: ls) (by simp), ← hcs]
      rw [ih (fun h => hcr (List.mem_cons_of_mem _ h))
        (by rwa [getLast?_cons_ne_nil '\n' cs hcsne] at hlast)]
      rfl
  | case3 hne =>
    intro hcr _
    exact absurd (by simp) hcr
  | case4 cs2 hne ih =>
    intro hcr _
    exact absurd (by simp) hcr
  | case5 c2 cs2 h3 hne ih =>
    intro hcr _
    exact absurd (by simp) hcr
  | case6 c cs h1 h2 hnil ih =>
    intro hcr hlast
    rw [splitlines_other_nil c cs h1 h2 hnil]
    have hcse : cs = [] := (splitlines_eq_nil_iff cs).mp hnil
    subst hcse
    rfl
  | case7 c cs h1 h2 l0 ls0 hcons ih =>
    intro hcr hlast
    rw [splitlines_other_cons c cs h1 h2 l0 ls0 hcons, joinN_cons_cons, ← hcons]
    have hcsne : cs ≠ [] := by
      intro h
      rw [h] at hcons
      simp [splitlines] at hcons
    rw [ih (fun h => hcr (List.mem_cons_of_mem _ h))
      (by rwa [getLast?_cons_ne_nil c cs hcsne] at hlast)]

end Vakyasaar

namespace Vakyasaar

theorem mnlSub_cons3 (c1 c2 c3 : Char) (cs : Str) :
    mnlSub (c1 :: c2 :: c3 :: cs) =
      if c1 = '\n' ∧ c2 = '\n' ∧ c3 = '\n' then mnlSub (c2 :: c3 :: cs)
      else c1 :: mnlSub (c2 :: c3 :: cs) := by
  conv_lhs => rw [mnlSub.eq_def]

theorem mnlSub_cons_ne_nl (c : Char) (x : Str) (h : c ≠ '\n') :
    mnlSub (c :: x) = c :: mnlSub x := by
  rcases x with _ | ⟨a, _ | ⟨b, t⟩⟩
  · rfl
  · rfl
  · rw [mnlSub_cons3, if_neg (fun hand => h hand.1)]

theorem mnlSub_append_no_nl : ∀ (l r : Str), '\n' ∉ l → mnlSub (l ++ r) = l ++ mnlSub r := by
  intro l
  induction l with
  | nil => intro r _; simp
  | cons a l ih =>
    intro r h
    have ha : a ≠ '\n' := by
      intro hc
      subst hc
      exact h (List.mem_cons_self _ _)
    rw [List.cons_append, mnlSub_cons_ne_nl a _ ha,
      ih r (fun hm => h (List.mem_cons_of_mem a hm))]
    rfl

theorem mnlSub_nl_cons (x : Str) (h : x.head? ≠ some '\n') :
    mnlSub ('\n' :: x) = '\n' :: mnlSub x := by
  rcases x with _ | ⟨a, _ | ⟨b, t⟩⟩
  · rfl
  · rfl
  · have ha : a ≠ '\n' := by simpa using h
    rw [mnlSub_cons3, if_neg (fun hand => ha hand.2.1)]

theorem mnlSub_joinN : ∀ ls : List Str, (∀ l ∈ ls, l ≠ [] ∧ '\n' ∉ l) →
    mnlSub (joinN ls) = joinN ls := by
  intro ls
  induction ls with
  | nil => intro _; rfl
  | cons l ls ih =>
    intro h
    cases ls with
    | nil =>
      show mnlSub l = l
      calc mnlSub l = mnlSub (l ++ []) := by simp
        _ = l ++ mnlSub [] := mnlSub_append_no_nl l [] (h l (by simp)).2
        _ = l := by simp [mnlSub]
    | cons l2 ls2 =>
      rw [joinN_cons_of_ne_nil l (l2 :: ls2) (by simp),
        mnlSub_append_no_nl l _ (h l (by simp)).2]
      congr 1
      rw [mnlSub_nl_cons _ ?hh]
      · rw [ih (fun l' hl' => h l' (List.mem_cons_of_mem l hl'))]
      case hh =>
        rw [joinN_head? l2 ls2 (h l2 (by simp)).1]
        intro hc
        exact (h l2 (by simp)).2 (List.mem_of_mem_head? (by rw [hc]; rfl))

theorem mem_mnlSub {c : Char} : ∀ {s : Str}, c ∈ mnlSub s → c ∈ s := by
  intro s
  induction s using mnlSub.induct with
  | case1 c1 c2 c3 cs h ih =>
    intro hm
    rw [mnlSub_cons3, if_pos h] at hm
    exact List.mem_cons_of_mem c1 (ih hm)
  | case2 c1 c2 c3 cs h ih =>
    intro hm
    rw [mnlSub_cons3, if_neg h] at hm
    rcases List.mem_cons.mp hm with rfl | hm
    · exact List.mem_cons_self _ _
    · exact List.mem_cons_of_mem c1 (ih hm)
  | case3 s hshort =>
    intro hm
    rcases s with _ | ⟨a, _ | ⟨b, _ | ⟨c3, t⟩⟩⟩
    · exact hm
    · exact hm
    · exact hm
    · exact (hshort a b c3 t rfl).elim

theorem collapseSp_cons_cons (c1 c2 : Char) (cs : Str) :
    collapseSp (c1 :: c2 :: cs) =
      if c1 = ' ' ∧ c2 = ' ' then collapseSp (c2 :: cs)
      else c1 :: collapseSp (c2 :: cs) := by
  conv_lhs => rw [collapseSp.eq_def]

theorem collapseSp_ne_nil (c : Char) (cs : Str) : collapseSp (c :: cs) ≠ [] := by
  induction cs generalizing c with
  | nil =>
    intro h
    rw [show collapseSp [c] = [c] from rfl] at h
    exact List.noConfusion h
  | cons c2 cs2 ih =>
    rw [collapseSp_cons_cons]
    split
    · exact ih c2
    · simp

theorem collapseSp_head? : ∀ s : Str, (collapseSp s).head? = s.head? := by
  intro s
  induction s using collapseSp.induct with
  | case1 => rfl
  | case2 c => rfl
  | case3 c1 c2 cs h ih =>
    rw [collapseSp_cons_cons, if_pos h, ih]
    simp [h.1, h.2]
  | case4 c1 c2 cs h ih =>
    rw [collapseSp_cons_cons, if_neg h]
    simp

theorem collapseSp_idem : ∀ s : Str, collapseSp (collapseSp s) = collapseSp s := by
  intro s
  induction s using collapseSp.induct with
  | case1 => rfl
  | case2 c => rfl
  | case3 c1 c2 cs h ih =>
    rw [collapseSp_cons_cons, if_pos h]
    exact ih
  | case4 c1 c2 cs h ih =>
    rw [collapseSp_cons_cons, if_neg h]
    cases hx : collapseSp (c2 :: cs) with
    | nil => exact absurd hx (collapseSp_ne_nil c2 cs)
    | cons x xs =>
      have hxc2 : x = c2 := by
        have hh := collapseSp_head? (c2 :: cs)
        rw [hx] at hh
        simpa using hh
      have hfix : collapseSp (x :: xs) = x :: xs := by
        have := ih
        rwa [hx] at this
      rw [collapseSp_cons_cons,
        if_neg (fun hand => h ⟨hand.1, hxc2 ▸ hand.2⟩), hfix]

theorem mem_collapseSp {c : Char} : ∀ {s : Str}, c ∈ collapseSp s → c ∈ s := by
  intro s
  induction s using collapseSp.induct with
  | case1 =>
    intro h
    exact h
  | case2 a =>
    intro h
    exact h
  | case3 c1 c2 cs h ih =>
    intro hm
    rw [collapseSp_cons_cons, if_pos h] at hm
    exact List.mem_cons_of_mem c1 (ih hm)
  | case4 c1 c2 cs h ih =>
    intro hm
    rw [collapseSp_cons_cons, if_neg h] at hm
    rcases List.mem_cons.mp hm with rfl | hm
    · exact List.mem_cons_self _ _
    · exact List.mem_cons_of_mem c1 (ih hm)

theorem collapseSp_getLast_not_ws :
    ∀ s : Str, (∀ c, s.getLast? = some c → isPyWs c = false) →
      ∀ c, (collapseSp s).getLast? = some c → isPyWs c = false := by
  intro s
  induction s using collapseSp.induct with
  | case1 => intro h c hc; exact h c hc
  | case2 a => intro h c hc; exact h c hc
  | case3 c1 c2 cs h ih =>
    intro hs c hc
    rw [collapseSp_cons_cons, if_pos h] at hc
    refine ih ?_ c hc
    intro d hd
    refine hs d ?_
    rwa [getLast?_cons_ne_nil c1 (c2 :: cs) (by simp)]
  | case4 c1 c2 cs h ih =>
    intro hs c hc
    rw [collapseSp_cons_cons, if_neg h] at hc
    rw [getLast?_cons_ne_nil c1 _ (collapseSp_ne_nil c2 cs)] at hc
    refine ih ?_ c hc
    intro d hd
    refine hs d ?_
    rwa [getLast?_cons_ne_nil c1 (c2 :: cs) (by simp)]

theorem subDel_cons_some (m : Str → Option Nat) (fuel : Nat) (c : Char) (cs : Str)
    (n : Nat) (h : m (c :: cs) = some n) :
    subDel m (fuel + 1) (c :: cs) = subDel m fuel (List.drop n (c :: cs)) := by
  conv_lhs => rw [subDel.eq_def]
  dsimp only
  rw [h]

theorem subDel_cons_none (m : Str → Option Nat) (fuel : Nat) (c : Char) (cs : Str)
    (h : m (c :: cs) = none) :
    subDel m (fuel + 1) (c :: cs) = c :: subDel m fuel cs := by
  conv_lhs => rw [subDel.eq_def]
  dsimp only
  rw [h]

theorem mem_subDel {c : Char} (m : Str → Option Nat) :
    ∀ (fuel : Nat) (s : Str), c ∈ subDel m fuel s → c ∈ s := by
  intro fuel s
  induction fuel, s using subDel.induct m with
  | case1 s => intro h; exact h
  | case2 n => intro h; exact h
  | case3 fuel a cs n hm ih =>
    intro h
    rw [subDel_cons_some m fuel a cs n hm] at h
    exact List.drop_subset _ _ (ih h)
  | case4 fuel a cs hm ih =>
    intro h
    rw [subDel_cons_none m fuel a cs hm] at h
    rcases List.mem_cons.mp h with rfl | h
    · exact List.mem_cons_self _ _
    · exact List.mem_cons_of_mem a (ih h)

theorem mem_urlSub {c : Char} {s : Str} (h : c ∈ urlSub s) : c ∈ s :=
  mem_subDel urlMatchLen (s.length + 1) s h

theorem mem_refSub {c : Char} {s : Str} (h : c ∈ refSub s) : c ∈ s :=
  mem_subDel refMatchLen (s.length + 1) s h

end Vakyasaar

namespace Vakyasaar

theorem filterMap_fixed {α : Type} (f : α → Option α) :
    ∀ L : List α, (∀ l ∈ L, f l = some l) → L.filterMap f = L := by
  intro L
  induction L with
  | nil => intro _; rfl
  | cons a L ih =>
    intro h
    rw [List.filterMap_cons, h a (List.mem_cons_self a L),
      ih (fun l hl => h l (List.mem_cons_of_mem a hl))]

end Vakyasaar

namespace Vakyasaar.TrainSet

open Vakyasaar

theorem cleanLine_some {l l' : Str} (h : cleanLine l = some l') :
    l' = strip (refSub (urlSub (strip l))) ∧ l' ≠ [] := by
  simp only [cleanLine] at h
  split at h
  · simp at h
  · split at h
    · simp at h
    · split at h
      · simp at h
      · split at h
        · simp at h
        · rename_i hne
          obtain rfl := Option.some.inj h
          exact ⟨rfl, hne⟩

theorem mem_cleanLine {l l' : Str} (h : cleanLine l = some l') {c : Char}
    (hc : c ∈ l') : c ∈ l := by
  obtain ⟨rfl, -⟩ := cleanLine_some h
  exact mem_strip (mem_urlSub (mem_refSub (mem_strip hc)))

theorem cleanText_no_cr (s : Str) : '\r' ∉ cleanText s := by
  intro hmem
  unfold cleanText at hmem
  have h1 := mem_collapseSp hmem
  have h2 := mem_strip h1
  have h3 := mem_mnlSub h2
  rcases mem_joinN h3 with ⟨l, hl, hcl⟩ | hnl
  · rw [List.mem_filterMap] at hl
    obtain ⟨a, ha, hfa⟩ := hl
    exact (splitlines_line_chars s a ha).2 (mem_cleanLine hfa hcl)
  · exact absurd hnl (by decide)

theorem cleanText_head_not_ws (s : Str) :
    ∀ c, (cleanText s).head? = some c → isPyWs c = false := by
  intro c hc
  unfold cleanText at hc
  rw [collapseSp_head?] at hc
  exact strip_head_not_ws _ c hc

theorem cleanText_getLast_not_ws (s : Str) :
    ∀ c, (cleanText s).getLast? = some c → isPyWs c = false := by
  intro c hc
  unfold cleanText at hc
  exact collapseSp_getLast_not_ws _ (strip_getLast_not_ws _) c hc

theorem cleanText_getLast_ne_nl (s : Str) : (cleanText s).getLast? ≠ some '\n' := by
  intro h
  have := cleanText_getLast_not_ws s '\n' h
  exact absurd this (by decide)

theorem strip_cleanText (s : Str) : strip (cleanText s) = cleanText s :=
  strip_eq_self _ (cleanText_head_not_ws s) (cleanText_getLast_not_ws s)

theorem collapseSp_cleanText (s : Str) : collapseSp (cleanText s) = cleanText s := by
  unfold cleanText
  exact collapseSp_idem _

/-- C1, counterexample to the claim as stated: the cleanup is not
idempotent.  On `"htt[1]p://x"` the reference removal runs after the URL
removal and manufactures the URL `"http://x"`, which the first pass
keeps but a second pass deletes entirely. -/
theorem cleanText_not_idempotent :
    ¬ (cleanText (cleanText "htt[1]p://x".data) = cleanText "htt[1]p://x".data) := by
  decide

/-- C1 (amended): the cleanup pipeline is idempotent on every input
whose cleaned output has only lines that are fixed points of the
per-line cleanup (not removable as blank, datetime or header lines, and
unchanged by URL/reference deletion and stripping).  In general
idempotence fails — the substitutions can manufacture a URL, a header or
a datetime line that only the second pass removes (see the
counterexample). -/
theorem cleanText_idempotent_on_fixed_lines (s : Str)
    (H : ∀ l ∈ splitlines (cleanText s), cleanLine l = some l) :
    cleanText (cleanText s) = cleanText s := by
  have hlines : (splitlines (cleanText s)).filterMap cleanLine = splitlines (cleanText s) :=
    filterMap_fixed cleanLine _ H
  have hprops : ∀ l ∈ splitlines (cleanText s), l ≠ [] ∧ '\n' ∉ l := by
    intro l hl
    exact ⟨(cleanLine_some (H l hl)).2, (splitlines_line_chars _ l hl).1⟩
  have hjoin : joinN (splitlines (cleanText s)) = cleanText s :=
    joinN_splitlines _ (cleanText_no_cr s) (cleanText_getLast_ne_nl s)
  show collapseSp (strip (mnlSub (joinN ((splitlines (cleanText s)).filterMap cleanLine)))) =
    cleanText s
  rw [hlines, mnlSub_joinN _ hprops, hjoin, strip_cleanText, collapseSp_cleanText]

/-- Witness for the amended C1: `"Hello world"` cleans to itself, its
single line is a fixed point of the per-line cleanup, and re-cleaning
changes nothing. -/
theorem cleanText_idempotent_on_fixed_lines_witness :
    (∀ l ∈ splitlines (cleanText "Hello world".data), cleanLine l = some l) ∧
    cleanText (cleanText "Hello world".data) = cleanText "Hello world".data :=
  ⟨by decide, cleanText_idempotent_on_fixed_lines "Hello world".data (by decide)⟩

end Vakyasaar.TrainSet
